import Mathlib

/-!
# proglog: the in-memory commit log of `internal/server/log.go`

A shallow embedding of the Go package `server` and the properties of its
`Log` type.

Modelling conventions.

* `uint64` values are natural numbers; the conversion `uint64(len(xs))` is
  written `uint64 xs.length` and reduces modulo `2 ^ 64`.  Go's `len` has type
  `int`, so a slice that exists at run time has fewer than `2 ^ 63` elements;
  the theorems that depend on the conversion being exact carry the (weaker)
  hypothesis `c.records.length < 2 ^ 64`.  An offset argument is any natural
  number, the `uint64` values among them.
* A value of type `[]byte` is a slice header (data pointer, length, capacity).
  Assigning or copying a `Record` copies the header, not the bytes behind it.
* `c.records` is only ever reached through the methods of `Log`, so the slice
  of records is modelled by the list of its elements.
* A call either returns, panics, or waits forever on the mutex; `Outcome`
  records which, together with the state of the log the call leaves behind.
  Calls are made one at a time, so a call that finds the mutex held never gets
  it; the theorems about a call that returns assume `c.mu.locked = false`.
* The bytes behind a slice header live in a `Memory`; the methods of `Log`
  neither read nor write it, a caller that assigns `s[i] = b` does.
* Goroutines that call `Append` at the same time take turns statement by
  statement, in any order (`Goroutine.step`, `System.run`); `c.mu.Lock()` is a
  step only while the mutex is free.
-/

namespace server

/-- Conversion of a non-negative integer to Go's `uint64`. -/
def uint64 (n : Nat) : Nat := n % 2 ^ 64

/-- Header of a Go `[]byte` value: address of the first element (`0` for a nil
slice), length and capacity. -/
structure ByteSlice where
  Data : Nat
  Len : Nat
  Cap : Nat
deriving DecidableEq, Repr

/-- The nil slice, zero value of `[]byte`. -/
def ByteSlice.nil : ByteSlice := { Data := 0, Len := 0, Cap := 0 }

/-- Go struct `Record`: `Value []byte` and `Offset uint64`. -/
structure Record where
  Value : ByteSlice
  Offset : Nat
deriving DecidableEq, Repr

/-- The composite literal `Record{}`: every field has its zero value. -/
def Record.zero : Record := { Value := ByteSlice.nil, Offset := 0 }

/-- A non-nil Go `error` value, identified by its message. -/
structure GoError where
  msg : String
deriving DecidableEq, Repr

/-- Package variable `ErrOffsetNotFound = fmt.Errorf("offset not found")`. -/
def ErrOffsetNotFound : GoError := { msg := "offset not found" }

/-- State of a `sync.Mutex`: whether some goroutine holds it. -/
structure Mutex where
  locked : Bool
deriving DecidableEq, Repr

/-- `m.Lock()`: succeeds on a free mutex; `none` when the mutex is held, in
which case the caller waits. -/
def Mutex.Lock (m : Mutex) : Option Mutex :=
  if m.locked then none else some { locked := true }

/-- `m.Unlock()`: releases a held mutex; `none` is the run-time error of
unlocking a mutex that is not held. -/
def Mutex.Unlock (m : Mutex) : Option Mutex :=
  if m.locked then some { locked := false } else none

/-- Go struct `Log`: the mutex `mu` and the slice `records`. -/
structure Log where
  mu : Mutex
  records : List Record
deriving DecidableEq, Repr

/-- How a method call on a log ends: it returns `a`, it panics, or it never
gets the mutex.  The first two carry the state of the log afterwards. -/
inductive Outcome (α : Type) where
  | ret (a : α) (c : Log)
  | panic (msg : String) (c : Log)
  | blocked
deriving DecidableEq, Repr

/-- The state of the log after the call, when the call ends. -/
def Outcome.state? {α : Type} : Outcome α → Option Log
  | .ret _ c => some c
  | .panic _ c => some c
  | .blocked => none

/-- The values a call returned, when it returned. -/
def Outcome.value? {α : Type} : Outcome α → Option α
  | .ret a _ => some a
  | .panic _ _ => none
  | .blocked => none

/-- The deferred `c.mu.Unlock()`, run when the method body is left, by a
return or by a panic. -/
def Log.unlockDeferred {α : Type} (out : Outcome α) : Outcome α :=
  match out with
  | .ret a c =>
    match c.mu.Unlock with
    | some mu => .ret a { c with mu := mu }
    | none => .panic "sync: unlock of unlocked mutex" c
  | .panic msg c =>
    match c.mu.Unlock with
    | some mu => .panic msg { c with mu := mu }
    | none => .panic "sync: unlock of unlocked mutex" c
  | .blocked => .blocked

/-- The prologue shared by both methods, `c.mu.Lock(); defer c.mu.Unlock()`,
followed by the rest of the method `body`. -/
def Log.withLock {α : Type} (c : Log) (body : Log → Outcome α) : Outcome α :=
  match c.mu.Lock with
  | none => .blocked
  | some mu => Log.unlockDeferred (body { c with mu := mu })

/-- Go function `NewLog`: `&Log{}`, a free mutex and a nil slice of records. -/
def NewLog : Log := { mu := { locked := false }, records := [] }

/-- Go method `(*Log).Append`. -/
def Log.Append (c : Log) (record : Record) : Outcome (Nat × Option GoError) :=
  c.withLock fun c =>
    let record : Record := { record with Offset := uint64 c.records.length }
    let c : Log := { c with records := c.records ++ [record] }
    .ret (record.Offset, none) c

/-- Go method `(*Log).Read`.  The index expression `c.records[offset]` panics
when `offset` is not below the length of the slice. -/
def Log.Read (c : Log) (offset : Nat) : Outcome (Record × Option GoError) :=
  c.withLock fun c =>
    if offset ≥ uint64 c.records.length then
      .ret (Record.zero, some ErrOffsetNotFound) c
    else
      match c.records[offset]? with
      | some r => .ret (r, none) c
      | none => .panic "runtime error: index out of range" c

/-- One call made by a client of the log. -/
inductive Call where
  | append (record : Record)
  | read (offset : Nat)
deriving DecidableEq, Repr

/-- `Append` called on each record of `rs` in turn; returns the offsets in the
order of the calls.  Stops at the first call that does not return. -/
def appendAll (c : Log) : List Record → Outcome (List Nat)
  | [] => .ret [] c
  | r :: rs =>
    match c.Append r with
    | .ret (off, _) c1 =>
      match appendAll c1 rs with
      | .ret offs c2 => .ret (off :: offs) c2
      | .panic msg c2 => .panic msg c2
      | .blocked => .blocked
    | .panic msg c1 => .panic msg c1
    | .blocked => .blocked

/-- The calls of `cs` made one after another on the log; returns the final
state.  Stops at the first call that does not return. -/
def runCalls (c : Log) : List Call → Outcome Unit
  | [] => .ret () c
  | .append r :: cs =>
    match c.Append r with
    | .ret _ c1 => runCalls c1 cs
    | .panic msg c1 => .panic msg c1
    | .blocked => .blocked
  | .read o :: cs =>
    match c.Read o with
    | .ret _ c1 => runCalls c1 cs
    | .panic msg c1 => .panic msg c1
    | .blocked => .blocked

/-- The records that `Append` stores for the arguments `rs` when the first of
them is appended to a log of length `n`. -/
def storedFrom (n : Nat) : List Record → List Record
  | [] => []
  | r :: rs => { Value := r.Value, Offset := uint64 n } :: storedFrom (n + 1) rs

/-- Every stored record carries the `uint64` of its own index as `Offset`. -/
def OffsetsMatch (c : Log) : Prop :=
  ∀ (i : Nat) (h : i < c.records.length), (c.records.get ⟨i, h⟩).Offset = uint64 i

/-- A byte, the element type of `[]byte`. -/
abbrev Byte := Fin 256

/-- The memory that holds the backing arrays of byte slices: the byte found at
each address. -/
abbrev Memory := Nat → Byte

/-- The elements `s[0], ..., s[len(s)-1]` of a byte slice, read from memory. -/
def ByteSlice.bytes (s : ByteSlice) (m : Memory) : List Byte :=
  (List.range s.Len).map fun i => m (s.Data + i)

/-- The Go assignment `s[i] = b`: it writes the backing array of `s`; `none`
is the index-out-of-range panic. -/
def ByteSlice.store (s : ByteSlice) (m : Memory) (i : Nat) (b : Byte) : Option Memory :=
  if i < s.Len then some (fun a => if a = s.Data + i then b else m a) else none

/-- What a caller of `Read` finds at an offset: the bytes of the `Value` it is
handed, read from memory, and the `Offset`; `none` when `Read` does not return
a record. -/
def Log.readBytes (c : Log) (m : Memory) (offset : Nat) : Option (List Byte × Nat) :=
  match c.Read offset with
  | .ret (r, none) _ => some (r.Value.bytes m, r.Offset)
  | _ => none

/-- A memory with the byte `'a'` at address `4096` and zero elsewhere. -/
def memoryWithA : Memory := fun a => if a = 4096 then 97 else 0

/-- A log whose one record has a `Value` of length one at address `4096`. -/
def logWithA : Log :=
  { mu := { locked := false }, records := [{ Value := ⟨4096, 1, 1⟩, Offset := 0 }] }

/-- The arguments of the `Append` calls of a sequence of calls, in order. -/
def appended : List Call → List Record
  | [] => []
  | .append r :: cs => r :: appended cs
  | .read _ :: cs => appended cs

/-- Reference model of `Read`: the log is the list `rs` of the records
appended so far; offset `i` finds the `Value` of `rs[i]` with `Offset` `i`,
and an offset past the end finds the zero-value `Record` and the error. -/
def refRead (rs : List Record) (i : Nat) : Record × Option GoError :=
  match rs[i]? with
  | some r => ({ Value := r.Value, Offset := i }, none)
  | none => (Record.zero, some ErrOffsetNotFound)

/-! ### Goroutines that call `Append` at the same time

Each goroutine makes its calls of `Append` one after another; the steps of
different goroutines interleave in any order.  A step is one statement of
`Append`; `c.mu.Lock()` can only be taken as a step while the mutex is free. -/

/-- Where a goroutine stands: outside a call of `Append`, or inside one,
before the statement named. -/
inductive Pc where
  /-- Not in a call; the next step is `c.mu.Lock()` of the next call. -/
  | idle
  /-- Before `record.Offset = uint64(len(c.records))`. -/
  | locked
  /-- Before `c.records = append(c.records, record)`. -/
  | assigned
  /-- Before `return record.Offset, nil` and the deferred `c.mu.Unlock()`. -/
  | appended
deriving DecidableEq, Repr

/-- A goroutine: the arguments of the calls it still has to make, its place in
the current call, the argument `arg` the current call was made with and the
current value of the parameter variable `record`. -/
structure Goroutine where
  todo : List Record
  pc : Pc
  arg : Record
  record : Record
deriving DecidableEq, Repr

/-- One call of `Append` that has returned: the goroutine that made it, the
argument it passed, and the offset and error it got back. -/
structure Returned where
  thread : Nat
  arg : Record
  offset : Nat
  err : Option GoError
deriving DecidableEq, Repr

/-- One step of goroutine number `t` on the log `c`: the goroutine and the log
after the step, and the return of the call if the step ends one.  `none` when
the goroutine cannot take a step: it has no call left, it waits for the mutex,
or it unlocks a mutex that is not held. -/
def Goroutine.step (g : Goroutine) (t : Nat) (c : Log) :
    Option (Goroutine × Log × Option Returned) :=
  match g.pc with
  | .idle =>
    match g.todo with
    | [] => none
    | r :: rest =>
      match c.mu.Lock with
      | none => none
      | some mu =>
        some ({ todo := rest, pc := .locked, arg := r, record := r }, { c with mu := mu }, none)
  | .locked =>
    some ({ g with pc := .assigned,
                   record := { g.record with Offset := uint64 c.records.length } }, c, none)
  | .assigned =>
    some ({ g with pc := .appended }, { c with records := c.records ++ [g.record] }, none)
  | .appended =>
    match c.mu.Unlock with
    | none => none
    | some mu =>
      some ({ g with pc := .idle }, { c with mu := mu },
        some { thread := t, arg := g.arg, offset := g.record.Offset, err := none })

/-- The log shared by the goroutines, the goroutines, and the calls that have
returned so far, in the order in which they returned. -/
structure System where
  log : Log
  threads : List Goroutine
  returned : List Returned
deriving DecidableEq, Repr

/-- The system in which goroutine `t` is about to append the records
`inputs[t]` to a new log. -/
def System.start (inputs : List (List Record)) : System :=
  { log := NewLog,
    threads := inputs.map fun rs =>
      { todo := rs, pc := .idle, arg := Record.zero, record := Record.zero },
    returned := [] }

/-- Goroutine `t` takes its next step; `none` when there is no such goroutine
or it cannot take a step. -/
def System.step (s : System) (t : Nat) : Option System :=
  match s.threads[t]? with
  | none => none
  | some g =>
    match g.step t s.log with
    | none => none
    | some (g1, c1, ev) =>
      some { log := c1, threads := s.threads.set t g1, returned := s.returned ++ ev.toList }

/-- The goroutines take steps in the order given by the schedule `ts`; `none`
when the schedule names a goroutine that cannot take its step. -/
def System.run (s : System) : List Nat → Option System
  | [] => some s
  | t :: ts =>
    match s.step t with
    | none => none
    | some s1 => s1.run ts

/-- Every goroutine has made all its calls. -/
def System.finished (s : System) : Prop :=
  ∀ g ∈ s.threads, g.pc = .idle ∧ g.todo = []

instance System.decidableFinished (s : System) : Decidable s.finished := by
  unfold System.finished
  infer_instance

/-- The number of calls a goroutine has not returned from yet. -/
def Goroutine.pending (g : Goroutine) : Nat :=
  g.todo.length + (if g.pc = .idle then 0 else 1)

/-- The argument of the call a goroutine is in, if it is in one. -/
def Goroutine.current (g : Goroutine) : List Record :=
  if g.pc = .idle then [] else [g.arg]

/-- The records the log holds for the calls that have returned. -/
def System.stored (s : System) : List Record :=
  storedFrom 0 (s.returned.map (·.arg))

/-- What holds of every state the goroutines reach from `System.start inputs`:
the calls that returned got the offsets `0, 1, ...` in the order of their
return and a nil error; no call is lost; each goroutine passes the records of
its input in order; and either the mutex is free, no goroutine is in a call and
the log holds the records of the calls that returned, or the mutex is held and
exactly one goroutine is in a call, whose place tells what the log holds. -/
structure System.Inv (inputs : List (List Record)) (s : System) : Prop where
  offsets : s.returned.map (·.offset) = (List.range' 0 s.returned.length).map uint64
  errs : ∀ e ∈ s.returned, e.err = none
  count : s.returned.length + (s.threads.map Goroutine.pending).sum
    = (inputs.map List.length).sum
  size : s.threads.length = inputs.length
  calls : ∀ (t : Nat) (g : Goroutine), s.threads[t]? = some g →
    inputs[t]? = some (((s.returned.filter fun e => e.thread = t).map (·.arg))
      ++ g.current ++ g.todo)
  phase :
    (s.log.mu.locked = false
        ∧ (∀ (t : Nat) (g : Goroutine), s.threads[t]? = some g → g.pc = .idle)
        ∧ s.log.records = s.stored)
      ∨ ∃ (t : Nat) (g : Goroutine), s.threads[t]? = some g
          ∧ (∀ (t1 : Nat) (g1 : Goroutine), s.threads[t1]? = some g1 → t1 ≠ t → g1.pc = .idle)
          ∧ s.log.mu.locked = true
          ∧ ((g.pc = .locked ∧ g.record.Value = g.arg.Value ∧ s.log.records = s.stored)
            ∨ (g.pc = .assigned
                ∧ g.record = { Value := g.arg.Value, Offset := uint64 s.returned.length }
                ∧ s.log.records = s.stored)
            ∨ (g.pc = .appended
                ∧ g.record = { Value := g.arg.Value, Offset := uint64 s.returned.length }
                ∧ s.log.records = s.stored ++ [g.record]))

/-- Two goroutines with two records each. -/
def twoByTwo : List (List Record) :=
  [[⟨⟨4096, 1, 8⟩, 7⟩, ⟨⟨4104, 2, 8⟩, 7⟩], [⟨⟨8192, 3, 3⟩, 9⟩, ⟨⟨0, 0, 0⟩, 0⟩]]

/-- A schedule for `twoByTwo`: goroutine 1 makes a call, goroutine 0 makes its
two calls, goroutine 1 makes its second call. -/
def twoByTwoSchedule : List Nat := [1, 1, 1, 1, 0, 0, 0, 0, 0, 0, 0, 0, 1, 1, 1, 1]

/-- The state `twoByTwo` reaches under `twoByTwoSchedule`. -/
def twoByTwoFinal : System :=
  { log :=
      { mu := ⟨false⟩,
        records := [⟨⟨8192, 3, 3⟩, 0⟩, ⟨⟨4096, 1, 8⟩, 1⟩, ⟨⟨4104, 2, 8⟩, 2⟩, ⟨⟨0, 0, 0⟩, 3⟩] },
    threads := [⟨[], .idle, ⟨⟨4104, 2, 8⟩, 7⟩, ⟨⟨4104, 2, 8⟩, 2⟩⟩,
      ⟨[], .idle, ⟨⟨0, 0, 0⟩, 0⟩, ⟨⟨0, 0, 0⟩, 3⟩⟩],
    returned := [⟨1, ⟨⟨8192, 3, 3⟩, 9⟩, 0, none⟩, ⟨0, ⟨⟨4096, 1, 8⟩, 7⟩, 1, none⟩,
      ⟨0, ⟨⟨4104, 2, 8⟩, 7⟩, 2, none⟩, ⟨1, ⟨⟨0, 0, 0⟩, 0⟩, 3, none⟩] }

/-- The number of steps a goroutine still has to take. -/
def Goroutine.stepsLeft (g : Goroutine) : Nat :=
  4 * g.todo.length +
    match g.pc with
    | .idle => 0
    | .locked => 3
    | .assigned => 2
    | .appended => 1

/-- The number of steps the goroutines still have to take. -/
def System.stepsLeft (s : System) : Nat :=
  (s.threads.map Goroutine.stepsLeft).sum

/-! ## Basic facts about the two methods -/

theorem uint64_of_lt {n : Nat} (h : n < 2 ^ 64) : uint64 n = n :=
  Nat.mod_eq_of_lt h

theorem uint64_lt (n : Nat) : uint64 n < 2 ^ 64 :=
  Nat.mod_lt n (by norm_num)

theorem uint64_le (n : Nat) : uint64 n ≤ n :=
  Nat.mod_le n _

/-- On a log whose mutex is free, `Append` returns: it computes the offset
from the length, stores the record with that offset and releases the mutex. -/
theorem Append_unlocked (c : Log) (r : Record) (hmu : c.mu.locked = false) :
    c.Append r =
      .ret (uint64 c.records.length, none)
        { mu := { locked := false },
          records := c.records ++ [{ Value := r.Value, Offset := uint64 c.records.length }] } := by
  simp [Log.Append, Log.withLock, Mutex.Lock, hmu, Log.unlockDeferred, Mutex.Unlock]

/-- On a log whose mutex is held, `Append` does not get past `Lock`. -/
theorem Append_locked (c : Log) (r : Record) (hmu : c.mu.locked = true) :
    c.Append r = .blocked := by
  simp [Log.Append, Log.withLock, Mutex.Lock, hmu]

/-- A log whose mutex is free is left as it was by a lock/unlock pair. -/
theorem Log.eq_of_unlocked (c : Log) (hmu : c.mu.locked = false) :
    ({ mu := { locked := false }, records := c.records } : Log) = c := by
  cases c with
  | mk mu records =>
    cases mu with
    | mk locked =>
      simp only at hmu
      subst hmu
      rfl

/-- The error branch of `Read`. -/
theorem Read_unlocked_of_ge (c : Log) (o : Nat) (hmu : c.mu.locked = false)
    (h : o ≥ uint64 c.records.length) :
    c.Read o = .ret (Record.zero, some ErrOffsetNotFound) c := by
  have hc := Log.eq_of_unlocked c hmu
  simp [Log.Read, Log.withLock, Mutex.Lock, hmu, Log.unlockDeferred, Mutex.Unlock, h, hc]

/-- The success branch of `Read`. -/
theorem Read_unlocked_of_lt (c : Log) (o : Nat) (hmu : c.mu.locked = false)
    (h : o < uint64 c.records.length) :
    c.Read o = .ret (c.records.get ⟨o, lt_of_lt_of_le h (uint64_le _)⟩, none) c := by
  have hc := Log.eq_of_unlocked c hmu
  have hlt : o < c.records.length := lt_of_lt_of_le h (uint64_le _)
  have hget : c.records[o]? = some (c.records.get ⟨o, hlt⟩) := by
    simp [List.getElem?_eq_getElem hlt]
  simp [Log.Read, Log.withLock, Mutex.Lock, hmu, Log.unlockDeferred, Mutex.Unlock,
    Nat.not_le.mpr h, hget, hc]

/-- The success branch of `Read`, with the index bounded by the length. -/
theorem Read_unlocked_of_lt_length (c : Log) (o : Nat)
    (hmu : c.mu.locked = false) (hlen : c.records.length < 2 ^ 64)
    (ho : o < c.records.length) :
    c.Read o = .ret (c.records.get ⟨o, ho⟩, none) c :=
  Read_unlocked_of_lt c o hmu (by rw [uint64_of_lt hlen]; exact ho)

/-- On a log whose mutex is held, `Read` does not get past `Lock`. -/
theorem Read_locked (c : Log) (o : Nat) (hmu : c.mu.locked = true) :
    c.Read o = .blocked := by
  simp [Log.Read, Log.withLock, Mutex.Lock, hmu]

/-- A call of `Append` that returns was made on a log whose mutex was free. -/
theorem unlocked_of_Append_ret {c c1 : Log} {r : Record} {v : Nat × Option GoError}
    (h : c.Append r = .ret v c1) : c.mu.locked = false := by
  cases hmu : c.mu.locked with
  | false => rfl
  | true => rw [Append_locked c r hmu] at h; cases h

/-- A call of `Read` that ends was made on a log whose mutex was free. -/
theorem unlocked_of_Read_state {c c1 : Log} {o : Nat}
    (h : (c.Read o).state? = some c1) : c.mu.locked = false := by
  cases hmu : c.mu.locked with
  | false => rfl
  | true => rw [Read_locked c o hmu] at h; cases h

/-! ## Append and Read on one log state -/

/-- C1: on a log holding `n` records, `Append r` returns offset `n` with a nil
error and leaves the old records followed by one new last record, whose
`Value` is `r.Value` and whose `Offset` is `n`; the first `Append` on a new
log returns offset `0`. -/
theorem Append_returns_length (c : Log) (r : Record)
    (hmu : c.mu.locked = false) (hlen : c.records.length < 2 ^ 64) :
    c.Append r =
        .ret (c.records.length, none)
          { c with records := c.records ++ [{ Value := r.Value, Offset := c.records.length }] }
      ∧ (NewLog.Append r).value? = some (0, none) := by
  constructor
  · rw [Append_unlocked c r hmu, uint64_of_lt hlen]
    have hc := Log.eq_of_unlocked c hmu
    cases c with
    | mk mu records =>
      simp only [Log.mk.injEq, and_true] at hc
      subst hc
      rfl
  · rw [Append_unlocked NewLog r rfl]
    rfl

theorem Append_returns_length_witness :
    (NewLog.Append { Value := ⟨4096, 1, 8⟩, Offset := 7 }
        = .ret (0, none) { mu := ⟨false⟩, records := [{ Value := ⟨4096, 1, 8⟩, Offset := 0 }] })
      ∧ (NewLog.Append { Value := ⟨4096, 1, 8⟩, Offset := 7 }).value? = some (0, none) :=
  Append_returns_length NewLog { Value := ⟨4096, 1, 8⟩, Offset := 7 } rfl (by decide)

/-- C2: if `Append r` returns offset `o` with a nil error, then `Read o` on
the resulting log returns a nil error and the record with `Value = r.Value`
and `Offset = o`. -/
theorem Append_then_Read (c c1 : Log) (r : Record) (o : Nat)
    (happ : c.Append r = .ret (o, none) c1) (hlen : c1.records.length < 2 ^ 64) :
    c1.Read o = .ret ({ Value := r.Value, Offset := o }, none) c1 := by
  have hmu := unlocked_of_Append_ret happ
  rw [Append_unlocked c r hmu] at happ
  injection happ with hv hc
  injection hv with ho _
  subst hc
  simp only [List.length_append, List.length_singleton] at hlen
  have hn : c.records.length < 2 ^ 64 := by omega
  rw [uint64_of_lt hn] at ho
  subst ho
  rw [uint64_of_lt hn]
  rw [Read_unlocked_of_lt _ _ rfl (by simp [uint64_of_lt hlen])]
  simp

theorem Append_then_Read_witness :
    NewLog.Append { Value := ⟨4096, 1, 8⟩, Offset := 7 }
        = .ret (0, none) { mu := ⟨false⟩, records := [{ Value := ⟨4096, 1, 8⟩, Offset := 0 }] }
      ∧ ({ mu := ⟨false⟩, records := [{ Value := ⟨4096, 1, 8⟩, Offset := 0 }] } : Log).records.length
          < 2 ^ 64
      ∧ ({ mu := ⟨false⟩, records := [{ Value := ⟨4096, 1, 8⟩, Offset := 0 }] } : Log).Read 0
          = .ret ({ Value := ⟨4096, 1, 8⟩, Offset := 0 }, none)
              { mu := ⟨false⟩, records := [{ Value := ⟨4096, 1, 8⟩, Offset := 0 }] } :=
  ⟨by decide, by decide,
    Append_then_Read NewLog _ { Value := ⟨4096, 1, 8⟩, Offset := 7 } 0 (by decide) (by decide)⟩

/-- C3: on a log holding `n` records, `Read o` with `o < n` returns a nil
error together with the record stored at position `o`. -/
theorem Read_in_range (c : Log) (o : Nat)
    (hmu : c.mu.locked = false) (hlen : c.records.length < 2 ^ 64)
    (ho : o < c.records.length) :
    c.Read o = .ret (c.records.get ⟨o, ho⟩, none) c := by
  have hlt : o < uint64 c.records.length := by
    rw [uint64_of_lt hlen]
    exact ho
  exact Read_unlocked_of_lt c o hmu hlt

theorem Read_in_range_witness :
    (1 : Nat) < 2
      ∧ ({ mu := ⟨false⟩, records := [⟨⟨4096, 1, 8⟩, 0⟩, ⟨⟨8192, 3, 3⟩, 1⟩] } : Log).Read 1
          = .ret (⟨⟨8192, 3, 3⟩, 1⟩, none)
              { mu := ⟨false⟩, records := [⟨⟨4096, 1, 8⟩, 0⟩, ⟨⟨8192, 3, 3⟩, 1⟩] } :=
  ⟨by decide,
    Read_in_range { mu := ⟨false⟩, records := [⟨⟨4096, 1, 8⟩, 0⟩, ⟨⟨8192, 3, 3⟩, 1⟩] } 1
      rfl (by decide) (by decide)⟩

/-- C4: on a log holding `n` records, `Read o` returns `ErrOffsetNotFound`
exactly when `o ≥ n`; a call that returns an error returns the zero-value
`Record` and the error is `ErrOffsetNotFound`; `Read n`, `Read m` for `m > n`
and `Read 0` on an empty log all fail with `ErrOffsetNotFound`. -/
theorem Read_fails_iff (c : Log) (o : Nat)
    (hmu : c.mu.locked = false) (hlen : c.records.length < 2 ^ 64) :
    ((∃ rec c1, c.Read o = .ret (rec, some ErrOffsetNotFound) c1) ↔ c.records.length ≤ o)
      ∧ (∀ rec e c1, c.Read o = .ret (rec, some e) c1 →
          rec = Record.zero ∧ e = ErrOffsetNotFound)
      ∧ c.Read c.records.length = .ret (Record.zero, some ErrOffsetNotFound) c
      ∧ (∀ m, c.records.length < m →
          c.Read m = .ret (Record.zero, some ErrOffsetNotFound) c)
      ∧ NewLog.Read 0 = .ret (Record.zero, some ErrOffsetNotFound) NewLog := by
  have hu := uint64_of_lt hlen
  have hge : ∀ m, c.records.length ≤ m →
      c.Read m = .ret (Record.zero, some ErrOffsetNotFound) c := by
    intro m hm
    exact Read_unlocked_of_ge c m hmu (by rw [hu]; exact hm)
  have hlt : ∀ (h : o < c.records.length), c.Read o = .ret (c.records.get ⟨o, h⟩, none) c :=
    fun h => Read_unlocked_of_lt_length c o hmu hlen h
  refine ⟨⟨?_, ?_⟩, ?_, hge _ le_rfl, fun m hm => hge m (le_of_lt hm), ?_⟩
  · rintro ⟨rec, c1, h⟩
    by_contra hcon
    rw [hlt (Nat.not_le.mp hcon)] at h
    injection h with hv _
    injection hv with _ he
    cases he
  · intro h
    exact ⟨_, _, hge o h⟩
  · intro rec e c1 h
    rcases Nat.lt_or_ge o c.records.length with ho | ho
    · rw [hlt ho] at h
      injection h with hv _
      injection hv with _ he
      cases he
    · rw [hge o ho] at h
      injection h with hv _
      injection hv with hr he
      injection he with he
      exact ⟨hr.symm, he.symm⟩
  · exact Read_unlocked_of_ge NewLog 0 rfl (Nat.zero_le _)

theorem Read_fails_iff_witness :
    ((∃ rec c1, ({ mu := ⟨false⟩, records := [⟨⟨4096, 1, 8⟩, 0⟩] } : Log).Read 5
          = .ret (rec, some ErrOffsetNotFound) c1) ↔ 1 ≤ 5)
      ∧ ({ mu := ⟨false⟩, records := [⟨⟨4096, 1, 8⟩, 0⟩] } : Log).Read 1
          = .ret (Record.zero, some ErrOffsetNotFound)
              { mu := ⟨false⟩, records := [⟨⟨4096, 1, 8⟩, 0⟩] } :=
  ⟨(Read_fails_iff { mu := ⟨false⟩, records := [⟨⟨4096, 1, 8⟩, 0⟩] } 5 rfl (by decide)).1,
    (Read_fails_iff { mu := ⟨false⟩, records := [⟨⟨4096, 1, 8⟩, 0⟩] } 5 rfl (by decide)).2.2.1⟩

/-! ## Sequences of calls -/

theorem storedFrom_length (n : Nat) (rs : List Record) :
    (storedFrom n rs).length = rs.length := by
  induction rs generalizing n with
  | nil => rfl
  | cons r rs ih => simp [storedFrom, ih]

/-- On a log whose mutex is free every call of `appendAll` returns; the k-th
offset is the `uint64` of the length before the k-th call. -/
theorem appendAll_unlocked (rs : List Record) (c : Log) (hmu : c.mu.locked = false) :
    appendAll c rs =
      .ret ((List.range' c.records.length rs.length).map uint64)
        { mu := { locked := false },
          records := c.records ++ storedFrom c.records.length rs } := by
  induction rs generalizing c with
  | nil => simp [appendAll, storedFrom, Log.eq_of_unlocked c hmu]
  | cons r rs ih =>
    rw [appendAll, Append_unlocked c r hmu]
    simp only
    rw [ih _ rfl]
    simp [storedFrom, List.range'_succ]

/-- What a successful `Read` tells about the log it was called on. -/
theorem Read_ret_nil {c c1 : Log} {o : Nat} {x : Record}
    (h : c.Read o = .ret (x, none) c1) :
    c.mu.locked = false ∧ c1 = c ∧ o < uint64 c.records.length ∧
      ∃ ho : o < c.records.length, x = c.records.get ⟨o, ho⟩ := by
  have hmu : c.mu.locked = false := unlocked_of_Read_state (by rw [h]; rfl)
  rcases Nat.lt_or_ge o (uint64 c.records.length) with ho | ho
  · rw [Read_unlocked_of_lt c o hmu ho] at h
    injection h with hv hc
    injection hv with hx _
    exact ⟨hmu, hc.symm, ho, lt_of_lt_of_le ho (uint64_le _), hx.symm⟩
  · rw [Read_unlocked_of_ge c o hmu ho] at h
    injection h with hv _
    injection hv with _ he
    cases he

/-- On a log whose mutex is free `Read` returns and leaves the log as it was:
the index expression is only reached with an index below the length. -/
theorem Read_unlocked (c : Log) (o : Nat) (hmu : c.mu.locked = false) :
    ∃ rec e, c.Read o = .ret (rec, e) c := by
  rcases Nat.lt_or_ge o (uint64 c.records.length) with ho | ho
  · exact ⟨_, _, Read_unlocked_of_lt c o hmu ho⟩
  · exact ⟨_, _, Read_unlocked_of_ge c o hmu ho⟩

theorem OffsetsMatch_NewLog : OffsetsMatch NewLog := by
  intro i h
  simp [NewLog] at h

/-- The state `Append` leaves keeps `OffsetsMatch`. -/
theorem OffsetsMatch_append (c : Log) (r : Record) (mu : Mutex) (h : OffsetsMatch c) :
    OffsetsMatch
      { mu := mu,
        records := c.records ++ [{ Value := r.Value, Offset := uint64 c.records.length }] } := by
  intro i hi
  simp only [List.length_append, List.length_singleton] at hi
  rcases Nat.lt_or_ge i c.records.length with hlt | hge
  · have := h i hlt
    simpa [List.getElem_append_left hlt] using this
  · have hi2 : i = c.records.length := by omega
    subst hi2
    simp

/-- From a log whose mutex is free every finite sequence of calls returns, with
the mutex free again and `OffsetsMatch` kept. -/
theorem runCalls_returns (cs : List Call) (c : Log) (hmu : c.mu.locked = false)
    (hinv : OffsetsMatch c) :
    ∃ c1, runCalls c cs = .ret () c1 ∧ c1.mu.locked = false ∧ OffsetsMatch c1 := by
  induction cs generalizing c with
  | nil => exact ⟨c, rfl, hmu, hinv⟩
  | cons call cs ih =>
    cases call with
    | append r =>
      rw [runCalls, Append_unlocked c r hmu]
      exact ih _ rfl (OffsetsMatch_append c r _ hinv)
    | read o =>
      obtain ⟨rec, e, hr⟩ := Read_unlocked c o hmu
      rw [runCalls, hr]
      exact ih c hmu hinv

/-- Below `2 ^ 64` the conversion to `uint64` leaves a run of lengths as it is. -/
theorem map_uint64_range (n : Nat) (h : n < 2 ^ 64) :
    (List.range' 0 n).map uint64 = List.range n := by
  have hmap : ∀ k ∈ List.range n, uint64 k = id k := by
    intro k hk
    exact uint64_of_lt (lt_trans (List.mem_range.mp hk) h)
  rw [← List.range_eq_range', List.map_congr_left hmap, List.map_id]

/-- C5: `N` calls of `Append` made one after another on a new log all return,
and the k-th returns offset `k`: the offsets are `0, 1, ..., N-1`, each once. -/
theorem appendAll_NewLog_offsets (rs : List Record) (hN : rs.length < 2 ^ 64) :
    ∃ offs c1, appendAll NewLog rs = .ret offs c1
      ∧ offs = List.range rs.length
      ∧ offs.Nodup
      ∧ ∀ k, k ∈ offs ↔ k < rs.length := by
  have hoffs : List.map uint64 (List.range' NewLog.records.length rs.length)
      = List.range rs.length := map_uint64_range rs.length hN
  refine ⟨_, _, appendAll_unlocked rs NewLog rfl, hoffs, ?_, ?_⟩
  · rw [hoffs]
    exact List.nodup_range _
  · intro k
    rw [hoffs]
    exact List.mem_range

theorem appendAll_NewLog_offsets_witness :
    ∃ offs c1, appendAll NewLog [⟨⟨4096, 1, 8⟩, 7⟩, ⟨⟨8192, 3, 3⟩, 7⟩, ⟨⟨0, 0, 0⟩, 0⟩]
        = .ret offs c1
      ∧ offs = List.range 3 ∧ offs.Nodup ∧ ∀ k, k ∈ offs ↔ k < 3 :=
  appendAll_NewLog_offsets [⟨⟨4096, 1, 8⟩, 7⟩, ⟨⟨8192, 3, 3⟩, 7⟩, ⟨⟨0, 0, 0⟩, 0⟩] (by decide)

/-- C6: in every state reached from `NewLog` by a finite sequence of `Append`
and `Read` calls, the record stored at index `i` has `Offset = i`. -/
theorem reachable_offset_eq_index (cs : List Call) (c : Log)
    (hrun : runCalls NewLog cs = .ret () c) (hlen : c.records.length < 2 ^ 64)
    (i : Nat) (hi : i < c.records.length) :
    (c.records.get ⟨i, hi⟩).Offset = i := by
  obtain ⟨c1, hc1, _, hinv⟩ := runCalls_returns cs NewLog rfl OffsetsMatch_NewLog
  rw [hrun] at hc1
  injection hc1 with _ hc
  subst hc
  rw [hinv i hi]
  exact uint64_of_lt (lt_trans hi hlen)

theorem reachable_offset_eq_index_witness :
    runCalls NewLog [.append ⟨⟨4096, 1, 8⟩, 7⟩, .read 0, .read 5, .append ⟨⟨8192, 3, 3⟩, 7⟩]
        = .ret () { mu := ⟨false⟩, records := [⟨⟨4096, 1, 8⟩, 0⟩, ⟨⟨8192, 3, 3⟩, 1⟩] }
      ∧ (([⟨⟨4096, 1, 8⟩, 0⟩, ⟨⟨8192, 3, 3⟩, 1⟩] : List Record).get
          ⟨1, by decide⟩).Offset = 1 :=
  ⟨by decide,
    reachable_offset_eq_index
      [.append ⟨⟨4096, 1, 8⟩, 7⟩, .read 0, .read 5, .append ⟨⟨8192, 3, 3⟩, 7⟩]
      { mu := ⟨false⟩, records := [⟨⟨4096, 1, 8⟩, 0⟩, ⟨⟨8192, 3, 3⟩, 1⟩] }
      (by decide) (by decide) 1 (by decide)⟩

/-- C7: `Append` never returns a non-nil error: every call that returns has a
nil error, a call on a log whose mutex is free returns, and no call panics. -/
theorem Append_error_nil (c : Log) (r : Record) :
    (∀ off e c1, c.Append r = .ret (off, e) c1 → e = none)
      ∧ (c.mu.locked = false → ∃ off c1, c.Append r = .ret (off, none) c1)
      ∧ (∀ msg c1, c.Append r ≠ .panic msg c1) := by
  cases hmu : c.mu.locked with
  | false =>
    rw [Append_unlocked c r hmu]
    refine ⟨?_, fun _ => ⟨_, _, rfl⟩, ?_⟩
    · intro off e c1 h
      injection h with hv _
      injection hv with _ he
      exact he.symm
    · intro msg c1 h
      cases h
  | true =>
    rw [Append_locked c r hmu]
    refine ⟨?_, ?_, ?_⟩
    · intro off e c1 h
      cases h
    · intro h
      cases h
    · intro msg c1 h
      cases h

theorem Append_error_nil_witness :
    ∃ off c1, ({ mu := ⟨false⟩, records := [⟨⟨4096, 1, 8⟩, 0⟩] } : Log).Append ⟨⟨8192, 3, 3⟩, 7⟩
      = .ret (off, none) c1 :=
  (Append_error_nil { mu := ⟨false⟩, records := [⟨⟨4096, 1, 8⟩, 0⟩] } ⟨⟨8192, 3, 3⟩, 7⟩).2.1 rfl

/-- C8: after `Append r` on a log holding `n` records the log holds `n + 1`
records, and for every `i < n` the record at index `i` is the one that was
there before the call. -/
theorem Append_frame (c : Log) (r : Record) (hmu : c.mu.locked = false) :
    ∃ off c1, c.Append r = .ret (off, none) c1
      ∧ c1.records.length = c.records.length + 1
      ∧ ∀ (i : Nat) (hi : i < c.records.length),
          c1.records[i]? = some (c.records.get ⟨i, hi⟩) := by
  refine ⟨_, _, Append_unlocked c r hmu, by simp, ?_⟩
  intro i hi
  simp [List.getElem?_append_left hi, List.getElem?_eq_getElem hi]

theorem Append_frame_witness :
    ∃ off c1, ({ mu := ⟨false⟩, records := [⟨⟨4096, 1, 8⟩, 0⟩] } : Log).Append ⟨⟨8192, 3, 3⟩, 7⟩
        = .ret (off, none) c1
      ∧ c1.records.length = 1 + 1
      ∧ ∀ (i : Nat) (hi : i < 1),
          c1.records[i]? = some (([⟨⟨4096, 1, 8⟩, 0⟩] : List Record).get ⟨i, hi⟩) :=
  Append_frame { mu := ⟨false⟩, records := [⟨⟨4096, 1, 8⟩, 0⟩] } ⟨⟨8192, 3, 3⟩, 7⟩ rfl

/-- C9: if `Read o` succeeds with record `x`, then after any finite sequence
of further `Append` calls `Read o` still succeeds and returns `x`. -/
theorem Read_stable_under_appendAll (c c0 : Log) (o : Nat) (x : Record) (rs : List Record)
    (hread : c.Read o = .ret (x, none) c0)
    (hlen : c.records.length + rs.length < 2 ^ 64) :
    ∃ offs c1, appendAll c rs = .ret offs c1 ∧ c1.Read o = .ret (x, none) c1 := by
  obtain ⟨hmu, _, _, ho, hx⟩ := Read_ret_nil hread
  refine ⟨_, _, appendAll_unlocked rs c hmu, ?_⟩
  have hlen1 : (c.records ++ storedFrom c.records.length rs).length < 2 ^ 64 := by
    simpa [storedFrom_length] using hlen
  have ho1 : o < (c.records ++ storedFrom c.records.length rs).length := by
    simp only [List.length_append]
    omega
  rw [Read_unlocked_of_lt_length _ o rfl hlen1 ho1, hx]
  simp [List.getElem_append_left ho]

theorem Read_stable_under_appendAll_witness :
    ({ mu := ⟨false⟩, records := [⟨⟨4096, 1, 8⟩, 0⟩] } : Log).Read 0
        = .ret (⟨⟨4096, 1, 8⟩, 0⟩, none) { mu := ⟨false⟩, records := [⟨⟨4096, 1, 8⟩, 0⟩] }
      ∧ ∃ offs c1,
          appendAll { mu := ⟨false⟩, records := [⟨⟨4096, 1, 8⟩, 0⟩] }
              [⟨⟨8192, 3, 3⟩, 7⟩, ⟨⟨0, 0, 0⟩, 0⟩] = .ret offs c1
            ∧ c1.Read 0 = .ret (⟨⟨4096, 1, 8⟩, 0⟩, none) c1 :=
  ⟨by decide,
    Read_stable_under_appendAll { mu := ⟨false⟩, records := [⟨⟨4096, 1, 8⟩, 0⟩] }
      { mu := ⟨false⟩, records := [⟨⟨4096, 1, 8⟩, 0⟩] } 0
      ⟨⟨4096, 1, 8⟩, 0⟩ [⟨⟨8192, 3, 3⟩, 7⟩, ⟨⟨0, 0, 0⟩, 0⟩] (by decide) (by decide)⟩

/-- C10: `Read` has no side effect: a call on a log whose mutex is free
returns, whether with a record or with an error, and the log after the call is
the log before it. -/
theorem Read_no_side_effect (c : Log) (o : Nat) (hmu : c.mu.locked = false) :
    (∃ rec e, c.Read o = .ret (rec, e) c) ∧ (c.Read o).state? = some c := by
  obtain ⟨rec, e, h⟩ := Read_unlocked c o hmu
  exact ⟨⟨rec, e, h⟩, by rw [h]; rfl⟩

theorem Read_no_side_effect_witness :
    (∃ rec e, ({ mu := ⟨false⟩, records := [⟨⟨4096, 1, 8⟩, 0⟩] } : Log).Read 3
        = .ret (rec, e) { mu := ⟨false⟩, records := [⟨⟨4096, 1, 8⟩, 0⟩] })
      ∧ (({ mu := ⟨false⟩, records := [⟨⟨4096, 1, 8⟩, 0⟩] } : Log).Read 3).state?
        = some { mu := ⟨false⟩, records := [⟨⟨4096, 1, 8⟩, 0⟩] } :=
  Read_no_side_effect { mu := ⟨false⟩, records := [⟨⟨4096, 1, 8⟩, 0⟩] } 3 rfl

/-! ## The argument of Append, a new log, and the reference model -/

/-- C11: the `Offset` field of the argument of `Append` is ignored: two
records with the same `Value` get the same offset and leave the same log. -/
theorem Append_ignores_Offset (c : Log) (r1 r2 : Record) (hv : r1.Value = r2.Value) :
    c.Append r1 = c.Append r2 := by
  cases hmu : c.mu.locked with
  | false => rw [Append_unlocked c r1 hmu, Append_unlocked c r2 hmu, hv]
  | true => rw [Append_locked c r1 hmu, Append_locked c r2 hmu]

theorem Append_ignores_Offset_witness :
    ({ mu := ⟨false⟩, records := [⟨⟨4096, 1, 8⟩, 0⟩] } : Log).Append ⟨⟨8192, 3, 3⟩, 7⟩
        = ({ mu := ⟨false⟩, records := [⟨⟨4096, 1, 8⟩, 0⟩] } : Log).Append ⟨⟨8192, 3, 3⟩, 12345⟩
      ∧ ({ mu := ⟨false⟩, records := [⟨⟨4096, 1, 8⟩, 0⟩] } : Log).Append ⟨⟨8192, 3, 3⟩, 12345⟩
        = .ret (1, none)
            { mu := ⟨false⟩, records := [⟨⟨4096, 1, 8⟩, 0⟩, ⟨⟨8192, 3, 3⟩, 1⟩] } :=
  ⟨Append_ignores_Offset { mu := ⟨false⟩, records := [⟨⟨4096, 1, 8⟩, 0⟩] }
      ⟨⟨8192, 3, 3⟩, 7⟩ ⟨⟨8192, 3, 3⟩, 12345⟩ rfl,
    by decide⟩

/-- C13: the log made by `NewLog` holds no record: `Read o` fails on it with
`ErrOffsetNotFound` for every `o`, and the first `Append` returns offset `0`. -/
theorem NewLog_empty :
    NewLog.records.length = 0
      ∧ (∀ o, NewLog.Read o = .ret (Record.zero, some ErrOffsetNotFound) NewLog)
      ∧ (∀ r, NewLog.Append r =
          .ret (0, none) { NewLog with records := [{ Value := r.Value, Offset := 0 }] }) := by
  refine ⟨rfl, ?_, ?_⟩
  · intro o
    exact Read_unlocked_of_ge NewLog o rfl (Nat.zero_le _)
  · intro r
    rw [Append_unlocked NewLog r rfl]
    rfl

/-- C17: when the guard `offset >= uint64(len(c.records))` is false the index
`offset` is below the length, so `Read` never panics and returns whenever the
mutex is free, also on an empty log and for `o = 2 ^ 64 - 1`. -/
theorem Read_index_in_bounds (c : Log) (o : Nat) :
    (¬ o ≥ uint64 c.records.length → o < c.records.length)
      ∧ (∀ msg c1, c.Read o ≠ .panic msg c1)
      ∧ (c.mu.locked = false → ∃ rec e, c.Read o = .ret (rec, e) c)
      ∧ NewLog.Read (2 ^ 64 - 1) = .ret (Record.zero, some ErrOffsetNotFound) NewLog := by
  refine ⟨fun h => lt_of_lt_of_le (Nat.not_le.mp h) (uint64_le _), ?_,
    fun hmu => Read_unlocked c o hmu, Read_unlocked_of_ge NewLog _ rfl (Nat.zero_le _)⟩
  intro msg c1 h
  cases hmu : c.mu.locked with
  | false =>
    obtain ⟨rec, e, hr⟩ := Read_unlocked c o hmu
    rw [hr] at h
    cases h
  | true =>
    rw [Read_locked c o hmu] at h
    cases h

theorem Read_index_in_bounds_witness :
    ∃ rec e, ({ mu := ⟨false⟩, records := [⟨⟨4096, 1, 8⟩, 0⟩] } : Log).Read (2 ^ 64 - 1)
      = .ret (rec, e) { mu := ⟨false⟩, records := [⟨⟨4096, 1, 8⟩, 0⟩] } :=
  (Read_index_in_bounds { mu := ⟨false⟩, records := [⟨⟨4096, 1, 8⟩, 0⟩] } (2 ^ 64 - 1)).2.2.1 rfl

theorem storedFrom_getElem? (n : Nat) (rs : List Record) (i : Nat) :
    (storedFrom n rs)[i]? =
      rs[i]?.map fun r => { Value := r.Value, Offset := uint64 (n + i) } := by
  induction rs generalizing n i with
  | nil => simp [storedFrom]
  | cons r rs ih =>
    cases i with
    | zero => simp [storedFrom]
    | succ i =>
      simp only [storedFrom, List.getElem?_cons_succ, ih]
      have : n + 1 + i = n + (i + 1) := by omega
      rw [this]

/-- From a log whose mutex is free a sequence of calls returns, and the final
log is the first one followed by the records stored for the `Append` calls. -/
theorem runCalls_unlocked (cs : List Call) (c : Log) (hmu : c.mu.locked = false) :
    runCalls c cs =
      .ret ()
        { mu := { locked := false },
          records := c.records ++ storedFrom c.records.length (appended cs) } := by
  induction cs generalizing c with
  | nil => simp [runCalls, appended, storedFrom, Log.eq_of_unlocked c hmu]
  | cons call cs ih =>
    cases call with
    | append r =>
      rw [runCalls, Append_unlocked c r hmu]
      simp only
      rw [ih _ rfl]
      simp [appended, storedFrom]
    | read o =>
      obtain ⟨rec, e, hr⟩ := Read_unlocked c o hmu
      rw [runCalls, hr]
      simp only
      rw [ih c hmu]
      simp [appended]

/-- C16: after the records `rs` have been appended in order to a new log, with
`Read` calls anywhere in between, the log reads as the list `rs`: `Read i`
returns `rs[i].Value` with `Offset` `i` and a nil error for `i` below the
length of `rs`, and the zero-value `Record` with `ErrOffsetNotFound` for every
other `i`; this is the reference model `refRead`. -/
theorem runCalls_refines_list (cs : List Call) (hlen : (appended cs).length < 2 ^ 64) :
    ∃ c, runCalls NewLog cs = .ret () c
      ∧ (∀ (i : Nat) (hi : i < (appended cs).length),
          c.Read i = .ret ({ Value := ((appended cs).get ⟨i, hi⟩).Value, Offset := i }, none) c)
      ∧ (∀ i, (appended cs).length ≤ i →
          c.Read i = .ret (Record.zero, some ErrOffsetNotFound) c)
      ∧ (∀ i, c.Read i = .ret (refRead (appended cs) i) c) := by
  refine ⟨_, runCalls_unlocked cs NewLog rfl, ?_⟩
  have hrec : NewLog.records ++ storedFrom NewLog.records.length (appended cs)
      = storedFrom 0 (appended cs) := rfl
  rw [hrec]
  have hlen1 : (storedFrom 0 (appended cs)).length < 2 ^ 64 := by
    rw [storedFrom_length]
    exact hlen
  have hlt : ∀ (i : Nat) (hi : i < (appended cs).length),
      ({ mu := { locked := false }, records := storedFrom 0 (appended cs) } : Log).Read i
        = .ret ({ Value := ((appended cs).get ⟨i, hi⟩).Value, Offset := i }, none)
            { mu := { locked := false }, records := storedFrom 0 (appended cs) } := by
    intro i hi
    have hi1 : i < (storedFrom 0 (appended cs)).length := by
      rw [storedFrom_length]
      exact hi
    rw [Read_unlocked_of_lt_length _ i rfl hlen1 hi1]
    have hget := storedFrom_getElem? 0 (appended cs) i
    rw [List.getElem?_eq_getElem hi1, List.getElem?_eq_getElem hi] at hget
    simp only [Option.map_some', Option.some.injEq, Nat.zero_add] at hget
    simp only [List.get_eq_getElem]
    rw [hget, uint64_of_lt (lt_trans hi hlen)]
  have hge : ∀ i, (appended cs).length ≤ i →
      ({ mu := { locked := false }, records := storedFrom 0 (appended cs) } : Log).Read i
        = .ret (Record.zero, some ErrOffsetNotFound)
            { mu := { locked := false }, records := storedFrom 0 (appended cs) } := by
    intro i hi
    apply Read_unlocked_of_ge _ i rfl
    show i ≥ uint64 (storedFrom 0 (appended cs)).length
    rw [storedFrom_length, uint64_of_lt hlen]
    exact hi
  refine ⟨hlt, hge, ?_⟩
  intro i
  rcases Nat.lt_or_ge i (appended cs).length with hi | hi
  · rw [hlt i hi]
    simp [refRead, List.getElem?_eq_getElem hi]
  · rw [hge i hi]
    simp [refRead, List.getElem?_eq_none hi]

theorem runCalls_refines_list_witness :
    ∃ c, runCalls NewLog [.append ⟨⟨4096, 1, 8⟩, 7⟩, .read 0, .read 5, .append ⟨⟨8192, 3, 3⟩, 7⟩]
        = .ret () c
      ∧ (∀ (i : Nat) (hi : i < 2),
          c.Read i = .ret ({ Value := (([⟨⟨4096, 1, 8⟩, 7⟩, ⟨⟨8192, 3, 3⟩, 7⟩] :
            List Record).get ⟨i, hi⟩).Value, Offset := i }, none) c)
      ∧ (∀ i, 2 ≤ i → c.Read i = .ret (Record.zero, some ErrOffsetNotFound) c)
      ∧ (∀ i, c.Read i = .ret (refRead [⟨⟨4096, 1, 8⟩, 7⟩, ⟨⟨8192, 3, 3⟩, 7⟩] i) c) :=
  runCalls_refines_list
    [.append ⟨⟨4096, 1, 8⟩, 7⟩, .read 0, .read 5, .append ⟨⟨8192, 3, 3⟩, 7⟩] (by decide)

/-! ## The bytes behind a Value -/

/-- Writing `s[i] = b` changes the bytes of `s` at position `i` only. -/
theorem ByteSlice.bytes_store (s : ByteSlice) (m m1 : Memory) (i : Nat) (b : Byte)
    (h : s.store m i b = some m1) : s.bytes m1 = (s.bytes m).set i b := by
  unfold ByteSlice.store at h
  split at h
  · injection h with h
    subst h
    apply List.ext_getElem
    · simp [ByteSlice.bytes]
    · intro j h1 h2
      simp only [ByteSlice.bytes, List.getElem_map, List.getElem_range, List.getElem_set]
      by_cases hij : i = j
      · simp [hij]
      · have : ¬ (s.Data + j = s.Data + i) := by omega
        simp [hij, this]
  · cases h

/-- What a caller finds at an offset where `Read` returned a record. -/
theorem readBytes_of_Read {c c1 : Log} {o : Nat} {x : Record} (m : Memory)
    (h : c.Read o = .ret (x, none) c1) :
    c.readBytes m o = some (x.Value.bytes m, x.Offset) := by
  simp [Log.readBytes, h]

/-- C14: from a new log, `Append` of a record whose `Value` holds `"a"`
returns `(0, nil)`, `Append` of one whose `Value` holds `"b"` returns
`(1, nil)`, then `Read(0)` and `Read(1)` return these two values with offsets
`0` and `1` and a nil error, and `Read(2)` returns the zero-value `Record` with
`ErrOffsetNotFound`. -/
theorem scenario_a_b (m : Memory) (va vb : ByteSlice)
    (ha : va.bytes m = [97]) (hb : vb.bytes m = [98]) :
    NewLog.Append { Value := va, Offset := 0 }
        = .ret (0, none) { mu := ⟨false⟩, records := [⟨va, 0⟩] }
      ∧ ({ mu := ⟨false⟩, records := [⟨va, 0⟩] } : Log).Append { Value := vb, Offset := 0 }
        = .ret (1, none) { mu := ⟨false⟩, records := [⟨va, 0⟩, ⟨vb, 1⟩] }
      ∧ ({ mu := ⟨false⟩, records := [⟨va, 0⟩, ⟨vb, 1⟩] } : Log).Read 0
        = .ret (⟨va, 0⟩, none) { mu := ⟨false⟩, records := [⟨va, 0⟩, ⟨vb, 1⟩] }
      ∧ ({ mu := ⟨false⟩, records := [⟨va, 0⟩, ⟨vb, 1⟩] } : Log).readBytes m 0
        = some ([97], 0)
      ∧ ({ mu := ⟨false⟩, records := [⟨va, 0⟩, ⟨vb, 1⟩] } : Log).Read 1
        = .ret (⟨vb, 1⟩, none) { mu := ⟨false⟩, records := [⟨va, 0⟩, ⟨vb, 1⟩] }
      ∧ ({ mu := ⟨false⟩, records := [⟨va, 0⟩, ⟨vb, 1⟩] } : Log).readBytes m 1
        = some ([98], 1)
      ∧ ({ mu := ⟨false⟩, records := [⟨va, 0⟩, ⟨vb, 1⟩] } : Log).Read 2
        = .ret (Record.zero, some ErrOffsetNotFound)
            { mu := ⟨false⟩, records := [⟨va, 0⟩, ⟨vb, 1⟩] } := by
  have h0 : ({ mu := ⟨false⟩, records := [⟨va, 0⟩, ⟨vb, 1⟩] } : Log).Read 0
      = .ret (⟨va, 0⟩, none) { mu := ⟨false⟩, records := [⟨va, 0⟩, ⟨vb, 1⟩] } :=
    Read_unlocked_of_lt_length _ 0 rfl (by simp) (by simp)
  have h1 : ({ mu := ⟨false⟩, records := [⟨va, 0⟩, ⟨vb, 1⟩] } : Log).Read 1
      = .ret (⟨vb, 1⟩, none) { mu := ⟨false⟩, records := [⟨va, 0⟩, ⟨vb, 1⟩] } :=
    Read_unlocked_of_lt_length _ 1 rfl (by simp) (by simp)
  refine ⟨?_, ?_, h0, ?_, h1, ?_, ?_⟩
  · rw [Append_unlocked NewLog _ rfl]
    rfl
  · rw [Append_unlocked _ _ rfl]
    rfl
  · rw [readBytes_of_Read m h0, ha]
  · rw [readBytes_of_Read m h1, hb]
  · exact Read_unlocked_of_ge _ 2 rfl (by simp [uint64])

theorem scenario_a_b_witness :
    ({ mu := ⟨false⟩, records := [⟨⟨4096, 1, 1⟩, 0⟩, ⟨⟨4097, 1, 1⟩, 1⟩] } : Log).readBytes
        (fun a => if a = 4096 then 97 else 98) 0 = some ([97], 0)
      ∧ ({ mu := ⟨false⟩, records := [⟨⟨4096, 1, 1⟩, 0⟩, ⟨⟨4097, 1, 1⟩, 1⟩] } : Log).Read 2
        = .ret (Record.zero, some ErrOffsetNotFound)
            { mu := ⟨false⟩, records := [⟨⟨4096, 1, 1⟩, 0⟩, ⟨⟨4097, 1, 1⟩, 1⟩] } :=
  ⟨(scenario_a_b (fun a => if a = 4096 then 97 else 98) ⟨4096, 1, 1⟩ ⟨4097, 1, 1⟩
      (by decide) (by decide)).2.2.2.1,
    (scenario_a_b (fun a => if a = 4096 then 97 else 98) ⟨4096, 1, 1⟩ ⟨4097, 1, 1⟩
      (by decide) (by decide)).2.2.2.2.2.2⟩

/-- C12, as the claim states it, fails: the caller of `Read(0)` on `logWithA`
gets a `Value` whose one byte is `'a'`; after the caller overwrites that byte
with `'X'` through the `Value` it was handed, a later `Read(0)` finds `'X'`. -/
theorem Read_shares_bytes_counterexample :
    logWithA.Read 0 = .ret ({ Value := ⟨4096, 1, 1⟩, Offset := 0 }, none) logWithA
      ∧ logWithA.readBytes memoryWithA 0 = some ([97], 0)
      ∧ ((⟨4096, 1, 1⟩ : ByteSlice).store memoryWithA 0 88).map
          (fun m1 => logWithA.readBytes m1 0) = some (some ([88], 0)) := by
  refine ⟨by decide, by decide, by decide⟩

/-- C12, amended: `Read` hands out a copy of the stored `Record` struct, whose
`Value` shares its bytes with the stored record.  A later `Read(o)` returns the
same `Offset` and the same slice header; while memory is not written it finds
the same bytes; after the caller writes `x.Value[i] = b` it finds the bytes
with position `i` replaced by `b`. -/
theorem Read_copies_header (c c1 : Log) (o : Nat) (x : Record) (m : Memory)
    (hread : c.Read o = .ret (x, none) c1) :
    c1.Read o = .ret (x, none) c1
      ∧ c1.readBytes m o = some (x.Value.bytes m, x.Offset)
      ∧ ∀ i b m1, x.Value.store m i b = some m1 →
          c1.readBytes m1 o = some ((x.Value.bytes m).set i b, x.Offset) := by
  obtain ⟨_, hc, _, _, _⟩ := Read_ret_nil hread
  subst hc
  refine ⟨hread, readBytes_of_Read m hread, ?_⟩
  intro i b m1 hstore
  rw [readBytes_of_Read m1 hread, ByteSlice.bytes_store _ m m1 i b hstore]

theorem Read_copies_header_witness :
    logWithA.Read 0 = .ret ({ Value := ⟨4096, 1, 1⟩, Offset := 0 }, none) logWithA
      ∧ logWithA.readBytes memoryWithA 0
        = some ((⟨4096, 1, 1⟩ : ByteSlice).bytes memoryWithA, 0) :=
  ⟨(Read_copies_header logWithA logWithA 0 { Value := ⟨4096, 1, 1⟩, Offset := 0 } memoryWithA
      (by decide)).1,
    (Read_copies_header logWithA logWithA 0 { Value := ⟨4096, 1, 1⟩, Offset := 0 } memoryWithA
      (by decide)).2.1⟩

/-! ## Goroutines appending at the same time -/

theorem storedFrom_append (n : Nat) (xs ys : List Record) :
    storedFrom n (xs ++ ys) = storedFrom n xs ++ storedFrom (n + xs.length) ys := by
  induction xs generalizing n with
  | nil => simp [storedFrom]
  | cons x xs ih =>
    have hn : n + 1 + xs.length = n + (xs.length + 1) := by omega
    show storedFrom n (x :: (xs ++ ys)) = storedFrom n (x :: xs) ++ _
    rw [storedFrom, storedFrom, ih, hn]
    rfl

/-- Replacing one element of a list changes the sum of a measure by the
difference of the measures of the two elements. -/
theorem sum_map_set {α : Type} (f : α → Nat) (l : List α) (t : Nat) (a b : α)
    (h : l[t]? = some a) :
    ((l.set t b).map f).sum + f a = (l.map f).sum + f b := by
  induction l generalizing t with
  | nil => simp at h
  | cons x xs ih =>
    cases t with
    | zero =>
      simp only [List.getElem?_cons_zero, Option.some.injEq] at h
      subst h
      simp only [List.set_cons_zero, List.map_cons, List.sum_cons]
      omega
    | succ t =>
      simp only [List.getElem?_cons_succ] at h
      have := ih t h
      simp only [List.set_cons_succ, List.map_cons, List.sum_cons]
      omega

theorem System.stored_length (s : System) : s.stored.length = s.returned.length := by
  simp [System.stored, storedFrom_length]

/-- The invariant holds when the goroutines start. -/
theorem System.Inv_start (inputs : List (List Record)) :
    (System.start inputs).Inv inputs := by
  refine ⟨rfl, ?_, ?_, ?_, ?_, ?_⟩
  · intro e he
    simp [System.start] at he
  · simp only [System.start, List.length_nil, Nat.zero_add, List.map_map]
    congr 1
  · simp [System.start]
  · intro t g hg
    simp only [System.start, List.getElem?_map] at hg
    cases hin : inputs[t]? with
    | none => simp [hin] at hg
    | some rs =>
      simp only [hin, Option.map_some', Option.some.injEq] at hg
      subst hg
      simp [System.start, Goroutine.current]
  · left
    refine ⟨rfl, ?_, rfl⟩
    intro t g hg
    simp only [System.start, List.getElem?_map] at hg
    cases hin : inputs[t]? with
    | none => simp [hin] at hg
    | some rs =>
      simp only [hin, Option.map_some', Option.some.injEq] at hg
      subst hg
      rfl

/-- The four kinds of step a goroutine takes. -/
theorem Goroutine.step_cases {g g1 : Goroutine} {t : Nat} {c c1 : Log} {ev : Option Returned}
    (h : g.step t c = some (g1, c1, ev)) :
    (g.pc = .idle ∧ ∃ r rest, g.todo = r :: rest ∧ c.mu.locked = false
        ∧ g1 = { todo := rest, pc := .locked, arg := r, record := r }
        ∧ c1 = { mu := { locked := true }, records := c.records } ∧ ev = none)
      ∨ (g.pc = .locked
        ∧ g1 = { todo := g.todo, pc := .assigned, arg := g.arg, record :=
                { Value := g.record.Value, Offset := uint64 c.records.length } }
        ∧ c1 = c ∧ ev = none)
      ∨ (g.pc = .assigned
        ∧ g1 = { todo := g.todo, pc := .appended, arg := g.arg, record := g.record }
        ∧ c1 = { mu := c.mu, records := c.records ++ [g.record] } ∧ ev = none)
      ∨ (g.pc = .appended ∧ c.mu.locked = true
        ∧ g1 = { todo := g.todo, pc := .idle, arg := g.arg, record := g.record }
        ∧ c1 = { mu := { locked := false }, records := c.records }
        ∧ ev = some { thread := t, arg := g.arg, offset := g.record.Offset, err := none }) := by
  unfold Goroutine.step at h
  cases hpc : g.pc with
  | idle =>
    left
    simp only [hpc] at h
    cases htodo : g.todo with
    | nil => simp [htodo] at h
    | cons r rest =>
      simp only [htodo, Mutex.Lock] at h
      cases hmu : c.mu.locked with
      | true => simp [hmu] at h
      | false =>
        simp only [hmu, Bool.false_eq_true, if_false, Option.some.injEq, Prod.mk.injEq] at h
        obtain ⟨h1, h2, h3⟩ := h
        exact ⟨rfl, r, rest, rfl, rfl, h1.symm, h2.symm, h3.symm⟩
  | locked =>
    right; left
    simp only [hpc, Option.some.injEq, Prod.mk.injEq] at h
    obtain ⟨h1, h2, h3⟩ := h
    exact ⟨rfl, h1.symm, h2.symm, h3.symm⟩
  | assigned =>
    right; right; left
    simp only [hpc, Option.some.injEq, Prod.mk.injEq] at h
    obtain ⟨h1, h2, h3⟩ := h
    exact ⟨rfl, h1.symm, h2.symm, h3.symm⟩
  | appended =>
    right; right; right
    simp only [hpc, Mutex.Unlock] at h
    cases hmu : c.mu.locked with
    | false => simp [hmu] at h
    | true =>
      simp only [hmu, if_true, Option.some.injEq, Prod.mk.injEq] at h
      obtain ⟨h1, h2, h3⟩ := h
      exact ⟨rfl, rfl, h1.symm, h2.symm, h3.symm⟩

/-- The goroutines after goroutine `t` has taken a step. -/
theorem getElem?_set_of_getElem? {α : Type} {l : List α} {t : Nat} {a : α} (b : α)
    (h : l[t]? = some a) (t1 : Nat) :
    (l.set t b)[t1]? = if t1 = t then some b else l[t1]? := by
  have hlt : t < l.length := by
    by_contra hcon
    rw [List.getElem?_eq_none (Nat.le_of_not_lt hcon)] at h
    cases h
  by_cases h1 : t1 = t
  · subst h1
    simp [List.getElem?_set_self hlt]
  · have h2 : t ≠ t1 := fun h => h1 h.symm
    simp [h1, List.getElem?_set_ne h2]

/-- The calls a goroutine has made, is making and will make stay those of its
input when one goroutine takes a step. -/
theorem calls_step (inputs : List (List Record)) (threads : List Goroutine)
    (returned : List Returned) (t : Nat) (g g1 : Goroutine) (ev : Option Returned)
    (hcalls : ∀ (t : Nat) (g : Goroutine), threads[t]? = some g →
      inputs[t]? = some (((returned.filter fun e => e.thread = t).map (·.arg))
        ++ g.current ++ g.todo))
    (hg : threads[t]? = some g)
    (hev : ∀ e ∈ ev.toList, e.thread = t)
    (hcur : ev.toList.map (·.arg) ++ g1.current ++ g1.todo = g.current ++ g.todo) :
    ∀ (t1 : Nat) (g2 : Goroutine), (threads.set t g1)[t1]? = some g2 →
      inputs[t1]? = some ((((returned ++ ev.toList).filter fun e => e.thread = t1).map (·.arg))
        ++ g2.current ++ g2.todo) := by
  intro t1 g2 hg2
  rw [getElem?_set_of_getElem? g1 hg t1] at hg2
  by_cases h1 : t1 = t
  · subst h1
    simp only [if_true, Option.some.injEq] at hg2
    subst hg2
    have hfil : (ev.toList.filter fun e => decide (e.thread = t1)) = ev.toList := by
      apply List.filter_eq_self.mpr
      intro e he
      simp [hev e he]
    rw [hcalls t1 g hg, List.filter_append, hfil, List.map_append]
    simp only [List.append_assoc]
    rw [← List.append_assoc (List.map (·.arg) ev.toList), hcur]
  · simp only [h1, if_false] at hg2
    have hfil : (ev.toList.filter fun e => decide (e.thread = t1)) = [] := by
      apply List.filter_eq_nil_iff.mpr
      intro e he
      simp only [decide_eq_true_eq]
      rw [hev e he]
      exact fun h => h1 h.symm
    rw [hcalls t1 g2 hg2, List.filter_append, hfil, List.append_nil]

/-- A goroutine that is in a call is the only one, and it holds the mutex. -/
theorem System.Inv.holder {inputs : List (List Record)} {s : System} {t : Nat} {g : Goroutine}
    (h : s.Inv inputs) (hg : s.threads[t]? = some g) (hpc : g.pc ≠ .idle) :
    (∀ (t1 : Nat) (g1 : Goroutine), s.threads[t1]? = some g1 → t1 ≠ t → g1.pc = .idle)
      ∧ s.log.mu.locked = true
      ∧ ((g.pc = .locked ∧ g.record.Value = g.arg.Value ∧ s.log.records = s.stored)
        ∨ (g.pc = .assigned
            ∧ g.record = { Value := g.arg.Value, Offset := uint64 s.returned.length }
            ∧ s.log.records = s.stored)
        ∨ (g.pc = .appended
            ∧ g.record = { Value := g.arg.Value, Offset := uint64 s.returned.length }
            ∧ s.log.records = s.stored ++ [g.record])) := by
  rcases h.phase with ⟨_, hidle, _⟩ | ⟨t0, g0, hg0, hothers, hlocked, hpcs⟩
  · exact absurd (hidle t g hg) hpc
  · by_cases h0 : t = t0
    · subst h0
      rw [hg] at hg0
      injection hg0 with hg0
      subst hg0
      exact ⟨hothers, hlocked, hpcs⟩
    · exact absurd (hothers t g hg h0) hpc

/-- A step of a goroutine keeps the invariant. -/
theorem System.Inv_step {inputs : List (List Record)} {s s1 : System} {t : Nat}
    (h : s.Inv inputs) (hs : s.step t = some s1) : s1.Inv inputs := by
  unfold System.step at hs
  cases hg : s.threads[t]? with
  | none => simp [hg] at hs
  | some g =>
    simp only [hg] at hs
    cases hstep : g.step t s.log with
    | none => simp [hstep] at hs
    | some res =>
      obtain ⟨g1, c1, ev⟩ := res
      simp only [hstep, Option.some.injEq] at hs
      subst hs
      have hset := fun t1 => getElem?_set_of_getElem? g1 hg t1
      have hcount := sum_map_set Goroutine.pending s.threads t g g1 hg
      have hcnt := h.count
      rcases Goroutine.step_cases hstep with
        ⟨hpc, r, rest, htodo, hmu, hg1, hc1, hev⟩ | ⟨hpc, hg1, hc1, hev⟩
          | ⟨hpc, hg1, hc1, hev⟩ | ⟨hpc, hmu, hg1, hc1, hev⟩
      · subst hg1 hc1 hev
        rcases h.phase with ⟨_, hidle, hrec⟩ | ⟨t0, g0, _, _, hlocked, _⟩
        swap
        · rw [hmu] at hlocked
          cases hlocked
        refine ⟨?_, ?_, ?_, ?_, ?_, ?_⟩
        · simpa using h.offsets
        · simpa using h.errs
        · have hp : g.pending = rest.length + 1 := by simp [Goroutine.pending, hpc, htodo]
          have hp1 : ({ todo := rest, pc := .locked, arg := r, record := r } :
              Goroutine).pending = rest.length + 1 := by simp [Goroutine.pending]
          rw [hp, hp1] at hcount
          simp only [Option.toList, List.append_nil]
          omega
        · simpa using h.size
        · simpa using calls_step inputs s.threads s.returned t g _ none h.calls hg
            (by simp) (by simp [Goroutine.current, hpc, htodo])
        · right
          refine ⟨t, { todo := rest, pc := .locked, arg := r, record := r }, by simp [hset],
            ?_, rfl, Or.inl ⟨rfl, rfl, ?_⟩⟩
          · intro t1 g2 hg2 hne
            rw [hset] at hg2
            simp only [hne, if_false] at hg2
            exact hidle t1 g2 hg2
          · simpa [System.stored] using hrec
      · subst hg1 hc1 hev
        obtain ⟨hothers, hlocked, hpcs⟩ := h.holder hg (by rw [hpc]; decide)
        rcases hpcs with ⟨_, hval, hrec⟩ | ⟨hpc2, _⟩ | ⟨hpc2, _⟩
        rotate_left
        · rw [hpc] at hpc2
          cases hpc2
        · rw [hpc] at hpc2
          cases hpc2
        refine ⟨?_, ?_, ?_, ?_, ?_, ?_⟩
        · simpa using h.offsets
        · simpa using h.errs
        · have hp : g.pending = g.todo.length + 1 := by simp [Goroutine.pending, hpc]
          have hp1 : ({ todo := g.todo, pc := .assigned, arg := g.arg, record :=
              { Value := g.record.Value, Offset := uint64 s.log.records.length } } : Goroutine).pending
              = g.todo.length + 1 := by simp [Goroutine.pending]
          rw [hp, hp1] at hcount
          simp only [Option.toList, List.append_nil]
          omega
        · simpa using h.size
        · simpa using calls_step inputs s.threads s.returned t g _ none h.calls hg
            (by simp) (by simp [Goroutine.current, hpc])
        · right
          refine ⟨t, { todo := g.todo, pc := .assigned, arg := g.arg, record :=
              { Value := g.record.Value, Offset := uint64 s.log.records.length } }, by simp [hset], ?_, hlocked,
            Or.inr (Or.inl ⟨rfl, ?_, ?_⟩)⟩
          · intro t1 g2 hg2 hne
            rw [hset] at hg2
            simp only [hne, if_false] at hg2
            exact hothers t1 g2 hg2 hne
          · simp [hval, hrec, System.stored_length]
          · simpa [System.stored] using hrec
      · subst hg1 hc1 hev
        obtain ⟨hothers, hlocked, hpcs⟩ := h.holder hg (by rw [hpc]; decide)
        rcases hpcs with ⟨hpc2, _⟩ | ⟨_, hval, hrec⟩ | ⟨hpc2, _⟩
        rotate_left
        · refine ⟨?_, ?_, ?_, ?_, ?_, ?_⟩
          · simpa using h.offsets
          · simpa using h.errs
          · have hp : g.pending = g.todo.length + 1 := by simp [Goroutine.pending, hpc]
            have hp1 : ({ todo := g.todo, pc := .appended, arg := g.arg, record := g.record } : Goroutine).pending
                = g.todo.length + 1 := by simp [Goroutine.pending]
            rw [hp, hp1] at hcount
            simp only [Option.toList, List.append_nil]
            omega
          · simpa using h.size
          · simpa using calls_step inputs s.threads s.returned t g _ none h.calls hg
              (by simp) (by simp [Goroutine.current, hpc])
          · right
            refine ⟨t, { todo := g.todo, pc := .appended, arg := g.arg, record := g.record }, by simp [hset], ?_, hlocked,
              Or.inr (Or.inr ⟨rfl, ?_, ?_⟩)⟩
            · intro t1 g2 hg2 hne
              rw [hset] at hg2
              simp only [hne, if_false] at hg2
              exact hothers t1 g2 hg2 hne
            · simpa using hval
            · simpa [System.stored] using hrec
        · rw [hpc] at hpc2
          cases hpc2
        · rw [hpc] at hpc2
          cases hpc2
      · subst hg1 hc1 hev
        obtain ⟨hothers, hlocked, hpcs⟩ := h.holder hg (by rw [hpc]; decide)
        rcases hpcs with ⟨hpc2, _⟩ | ⟨hpc2, _⟩ | ⟨_, hval, hrec⟩
        · rw [hpc] at hpc2
          cases hpc2
        · rw [hpc] at hpc2
          cases hpc2
        have hoff : g.record.Offset = uint64 s.returned.length := by rw [hval]
        refine ⟨?_, ?_, ?_, ?_, ?_, ?_⟩
        · simp only [Option.toList, List.map_append, List.map_cons, List.map_nil,
            List.length_append, List.length_singleton, List.range'_1_concat, Nat.zero_add]
          rw [h.offsets, hoff]
        · intro e he
          simp only [Option.toList, List.mem_append, List.mem_singleton] at he
          rcases he with he | he
          · exact h.errs e he
          · rw [he]
        · have hp : g.pending = g.todo.length + 1 := by simp [Goroutine.pending, hpc]
          have hp1 : ({ todo := g.todo, pc := .idle, arg := g.arg, record := g.record } : Goroutine).pending
              = g.todo.length := by simp [Goroutine.pending]
          rw [hp, hp1] at hcount
          simp only [Option.toList, List.length_append, List.length_singleton]
          omega
        · simpa using h.size
        · exact calls_step inputs s.threads s.returned t g _ _ h.calls hg
            (by simp [Option.toList]) (by simp [Option.toList, Goroutine.current, hpc])
        · left
          refine ⟨rfl, ?_, ?_⟩
          · intro t1 g2 hg2
            rw [hset] at hg2
            by_cases hne : t1 = t
            · simp only [hne, if_true, Option.some.injEq] at hg2
              rw [← hg2]
            · simp only [hne, if_false] at hg2
              exact hothers t1 g2 hg2 hne
          · show s.log.records = _
            rw [hrec, hval]
            simp [System.stored, Option.toList, storedFrom_append, storedFrom]


/-- Every state the goroutines reach satisfies the invariant. -/
theorem System.Inv_run {inputs : List (List Record)} (ts : List Nat) {s s1 : System}
    (h : s.Inv inputs) (hr : s.run ts = some s1) : s1.Inv inputs := by
  induction ts generalizing s with
  | nil =>
    simp only [System.run, Option.some.injEq] at hr
    rw [← hr]
    exact h
  | cons t ts ih =>
    simp only [System.run] at hr
    cases hs : s.step t with
    | none => simp [hs] at hr
    | some s2 =>
      simp only [hs] at hr
      exact ih (System.Inv_step h hs) hr

theorem sum_map_length_const (inputs : List (List Record)) (K : Nat)
    (hK : ∀ rs ∈ inputs, rs.length = K) :
    (inputs.map List.length).sum = inputs.length * K := by
  induction inputs with
  | nil => simp
  | cons rs inputs ih =>
    have h1 := hK rs (List.mem_cons_self _ _)
    have h2 := ih fun rs1 h => hK rs1 (List.mem_cons_of_mem _ h)
    simp only [List.map_cons, List.sum_cons, List.length_cons, h1, h2]
    ring

theorem sum_eq_zero_of_all_zero (l : List Nat) (h : ∀ n ∈ l, n = 0) : l.sum = 0 := by
  induction l with
  | nil => rfl
  | cons n l ih =>
    have h1 := h n (List.mem_cons_self _ _)
    have h2 := ih fun m hm => h m (List.mem_cons_of_mem _ hm)
    simp [h1, h2]

/-- What the invariant says once every goroutine has made all its calls. -/
theorem System.Inv.of_finished {inputs : List (List Record)} {s : System}
    (h : s.Inv inputs) (hfin : s.finished) :
    s.log.mu.locked = false
      ∧ s.log.records = s.stored
      ∧ s.returned.length = (inputs.map List.length).sum
      ∧ (∀ (t : Nat) (ht : t < inputs.length),
          (s.returned.filter fun e => e.thread = t).map (·.arg) = inputs.get ⟨t, ht⟩) := by
  have hidle : ∀ (t : Nat) (g : Goroutine), s.threads[t]? = some g →
      g.pc = .idle ∧ g.todo = [] := by
    intro t g hg
    exact hfin g (List.getElem?_mem hg)
  have hphase : s.log.mu.locked = false ∧ s.log.records = s.stored := by
    rcases h.phase with ⟨hfree, _, hrec⟩ | ⟨t0, g0, hg0, _, _, hpcs⟩
    · exact ⟨hfree, hrec⟩
    · have := (hidle t0 g0 hg0).1
      rcases hpcs with ⟨hpc, _⟩ | ⟨hpc, _⟩ | ⟨hpc, _⟩ <;>
        · rw [this] at hpc
          cases hpc
  refine ⟨hphase.1, hphase.2, ?_, ?_⟩
  · have hzero : (s.threads.map Goroutine.pending).sum = 0 := by
      apply sum_eq_zero_of_all_zero
      intro n hn
      obtain ⟨g, hg, hgn⟩ := List.mem_map.mp hn
      have := hfin g hg
      rw [← hgn]
      simp [Goroutine.pending, this.1, this.2]
    have := h.count
    omega
  · intro t ht
    have hlt : t < s.threads.length := by
      rw [h.size]
      exact ht
    have hg : s.threads[t]? = some s.threads[t] := List.getElem?_eq_getElem hlt
    have hc := h.calls t _ hg
    have hi := hidle t _ hg
    rw [List.getElem?_eq_getElem ht] at hc
    simp only [Goroutine.current, hi.1, hi.2, if_true, List.append_nil,
      Option.some.injEq] at hc
    simp only [List.get_eq_getElem]
    exact hc.symm

/-- A step takes one off the number of steps left. -/
theorem System.stepsLeft_step {s s1 : System} {t : Nat} (hs : s.step t = some s1) :
    s1.stepsLeft + 1 = s.stepsLeft := by
  unfold System.step at hs
  cases hg : s.threads[t]? with
  | none => simp [hg] at hs
  | some g =>
    simp only [hg] at hs
    cases hstep : g.step t s.log with
    | none => simp [hstep] at hs
    | some res =>
      obtain ⟨g1, c1, ev⟩ := res
      simp only [hstep, Option.some.injEq] at hs
      subst hs
      have hsum := sum_map_set Goroutine.stepsLeft s.threads t g g1 hg
      have hg1 : g1.stepsLeft + 1 = g.stepsLeft := by
        rcases Goroutine.step_cases hstep with
          ⟨hpc, r, rest, htodo, _, hg1, _, _⟩ | ⟨hpc, hg1, _, _⟩
            | ⟨hpc, hg1, _, _⟩ | ⟨hpc, _, hg1, _, _⟩ <;>
          · subst hg1
            simp only [Goroutine.stepsLeft, hpc]
            try simp only [htodo, List.length_cons]
            try omega
      simp only [System.stepsLeft]
      omega

/-- No deadlock: while some goroutine has a call left, some goroutine can take
a step. -/
theorem System.Inv.progress {inputs : List (List Record)} {s : System}
    (h : s.Inv inputs) (hnot : ¬ s.finished) : ∃ t s1, s.step t = some s1 := by
  rcases h.phase with ⟨hfree, hidle, _⟩ | ⟨t0, g0, hg0, _, hlocked, hpcs⟩
  · unfold System.finished at hnot
    push_neg at hnot
    obtain ⟨g, hg, hgn⟩ := hnot
    obtain ⟨t, ht⟩ := List.mem_iff_getElem?.mp hg
    have hpc := hidle t g ht
    have htodo := hgn hpc
    cases hl : g.todo with
    | nil => exact absurd hl htodo
    | cons r rest =>
      refine ⟨t, ?_⟩
      simp only [System.step, ht, Goroutine.step, hpc, hl, Mutex.Lock, hfree,
        Bool.false_eq_true, if_false]
      exact ⟨_, rfl⟩
  · rcases hpcs with ⟨hpc, _⟩ | ⟨hpc, _⟩ | ⟨hpc, _⟩
    · refine ⟨t0, ?_⟩
      simp only [System.step, hg0, Goroutine.step, hpc]
      exact ⟨_, rfl⟩
    · refine ⟨t0, ?_⟩
      simp only [System.step, hg0, Goroutine.step, hpc]
      exact ⟨_, rfl⟩
    · refine ⟨t0, ?_⟩
      simp only [System.step, hg0, Goroutine.step, hpc, Mutex.Unlock, hlocked, if_true]
      exact ⟨_, rfl⟩

theorem System.finished_of_stepsLeft_zero {s : System} (h : s.stepsLeft = 0) :
    s.finished := by
  intro g hg
  have hle : g.stepsLeft ≤ s.stepsLeft :=
    List.single_le_sum (fun _ _ => Nat.zero_le _) _ (List.mem_map_of_mem _ hg)
  have hz : g.stepsLeft = 0 := by omega
  unfold Goroutine.stepsLeft at hz
  cases hpc : g.pc <;> simp only [hpc] at hz <;> try omega
  refine ⟨rfl, ?_⟩
  apply List.eq_nil_of_length_eq_zero
  omega

/-- Every state the goroutines reach can be run on until every goroutine has
made all its calls, and every way of running on gets there. -/
theorem System.Inv.completes {inputs : List (List Record)} (n : Nat) {s : System}
    (h : s.Inv inputs) (hn : s.stepsLeft = n) :
    ∃ ts s1, s.run ts = some s1 ∧ s1.finished := by
  induction n generalizing s with
  | zero => exact ⟨[], s, rfl, System.finished_of_stepsLeft_zero hn⟩
  | succ n ih =>
    by_cases hfin : s.finished
    · exact ⟨[], s, rfl, hfin⟩
    · obtain ⟨t, s1, hs⟩ := h.progress hfin
      have hleft := System.stepsLeft_step hs
      obtain ⟨ts, s2, hrun, hfin2⟩ := ih (System.Inv_step h hs) (by omega)
      exact ⟨t :: ts, s2, by simp [System.run, hs, hrun], hfin2⟩

/-- The four steps of one call, taken with no step of another goroutine in
between, do to the log what `Log.Append` does and return what it returns. -/
theorem System.call_eq_Append (s : System) (t : Nat) (g : Goroutine) (r : Record)
    (rest : List Record) (hg : s.threads[t]? = some g) (hpc : g.pc = .idle)
    (htodo : g.todo = r :: rest) (hmu : s.log.mu.locked = false) :
    ∃ off err c1, s.log.Append r = .ret (off, err) c1
      ∧ s.run [t, t, t, t] = some
          { log := c1,
            threads := s.threads.set t
              { todo := rest, pc := .idle, arg := r,
                record := { Value := r.Value, Offset := off } },
            returned := s.returned ++ [{ thread := t, arg := r, offset := off, err := err }] } := by
  have hlt : t < s.threads.length := by
    by_contra hcon
    rw [List.getElem?_eq_none (Nat.le_of_not_lt hcon)] at hg
    cases hg
  refine ⟨_, _, _, Append_unlocked s.log r hmu, ?_⟩
  simp [System.run, System.step, hg, Goroutine.step, hpc, htodo, Mutex.Lock, hmu,
    Mutex.Unlock, List.getElem?_set_self, hlt, List.set_set, Option.toList]

/-- C15: goroutines that append at the same time.  `C` goroutines each call
`Append` on `K` records, their steps interleaved in any order, under the mutex.
The goroutines can always run on until all calls have returned, and then: the
log holds `C * K` records; the offsets returned are `0, ..., C * K - 1`, each
once; every call got a nil error and the log holds at the offset it returned
the `Value` it passed, with that `Offset`; and each goroutine passed the
records of its input, in order. -/
theorem concurrent_Append (inputs : List (List Record)) (C K : Nat)
    (hC : inputs.length = C) (hK : ∀ rs ∈ inputs, rs.length = K) (hlen : C * K < 2 ^ 64) :
    (∀ ts s, (System.start inputs).run ts = some s →
        ∃ ts1 s1, s.run ts1 = some s1 ∧ s1.finished)
      ∧ ∀ ts s, (System.start inputs).run ts = some s → s.finished →
        s.log.records.length = C * K
          ∧ s.returned.map (·.offset) = List.range (C * K)
          ∧ (s.returned.map (·.offset)).Nodup
          ∧ (∀ e ∈ s.returned, e.err = none
              ∧ s.log.records[e.offset]? = some { Value := e.arg.Value, Offset := e.offset })
          ∧ (∀ (i : Nat) (hi : i < s.log.records.length),
              (s.log.records.get ⟨i, hi⟩).Offset = i)
          ∧ (∀ (t : Nat) (ht : t < inputs.length),
              (s.returned.filter fun e => e.thread = t).map (·.arg) = inputs.get ⟨t, ht⟩) := by
  constructor
  · intro ts s hrun
    exact (System.Inv_run ts (System.Inv_start inputs) hrun).completes _ rfl
  · intro ts s hrun hfin
    have hinv := System.Inv_run ts (System.Inv_start inputs) hrun
    obtain ⟨_, hrec, hcount, hcalls⟩ := hinv.of_finished hfin
    have htotal : s.returned.length = C * K := by
      rw [hcount, sum_map_length_const inputs K hK, hC]
    have hoffs : s.returned.map (·.offset) = List.range (C * K) := by
      rw [hinv.offsets, htotal]
      exact map_uint64_range _ hlen
    have hreclen : s.log.records.length = C * K := by
      rw [hrec, System.stored_length, htotal]
    have hget : ∀ i, s.log.records[i]? =
        (s.returned[i]?).map fun e => (⟨e.arg.Value, uint64 i⟩ : Record) := by
      intro i
      rw [hrec, System.stored, storedFrom_getElem?, List.getElem?_map, Option.map_map,
        Nat.zero_add]
      rfl
    refine ⟨hreclen, hoffs, ?_, ?_, ?_, hcalls⟩
    · rw [hoffs]
      exact List.nodup_range _
    · intro e he
      refine ⟨hinv.errs e he, ?_⟩
      obtain ⟨j, hj, hje⟩ := List.mem_iff_getElem.mp he
      have hoff : e.offset = j := by
        have h1 : (s.returned.map (·.offset))[j]? = some e.offset := by
          rw [List.getElem?_map, List.getElem?_eq_getElem hj, hje]
          rfl
        rw [hoffs, List.getElem?_range (by rw [← htotal]; exact hj)] at h1
        injection h1 with h1
        exact h1.symm
      rw [hoff, hget j, List.getElem?_eq_getElem hj, hje]
      simp only [Option.map_some', Option.some.injEq, Record.mk.injEq, true_and]
      exact uint64_of_lt (by omega)
    · intro i hi
      have hi1 : i < s.returned.length := by omega
      have h1 := hget i
      rw [List.getElem?_eq_getElem hi, List.getElem?_eq_getElem hi1] at h1
      simp only [Option.map_some', Option.some.injEq] at h1
      simp only [List.get_eq_getElem, h1]
      exact uint64_of_lt (by omega)

theorem concurrent_Append_witness :
    (System.start twoByTwo).run twoByTwoSchedule = some twoByTwoFinal
      ∧ twoByTwoFinal.log.records.length = 2 * 2
      ∧ twoByTwoFinal.returned.map (·.offset) = List.range (2 * 2) :=
  ⟨by decide,
    ((concurrent_Append twoByTwo 2 2 rfl (by decide) (by decide)).2
      twoByTwoSchedule twoByTwoFinal (by decide) (by decide)).1,
    ((concurrent_Append twoByTwo 2 2 rfl (by decide) (by decide)).2
      twoByTwoSchedule twoByTwoFinal (by decide) (by decide)).2.1⟩

end server
